import Mathlib

/-!
# Verification of the FinancialReportETL table-reconstruction and page-classification code

This development is a shallow embedding of the two Python modules of the
repository:

* `main_v2.py` — whitespace-table reconstruction
  (`detect_column_boundaries`, `extract_spaced_table`, and the
  spaced-table materialization step of `extract_tables_from_pdf`);
* `main.py` — the two-stage financial-page classifier
  (`pre_filter_financial_page` score arithmetic and the page loop of
  `process_pdf_with_prefilter`).

Python floats are modelled as rationals (`ℚ`), Python lists as `List`,
Python strings as `String`.  Sorting is modelled by structurally recursive
insertion sorts mirroring the stable `sorted`/`list.sort` of CPython
(stability is respected: an element is inserted after the elements that
compare strictly greater in a descending sort, and after smaller-or-equal
elements in an ascending sort of plain numbers, where stability is
unobservable).
-/

namespace FinancialReportETL

/-! ## Python string helpers -/

/-- Python `str.strip()`: drop leading and trailing whitespace. -/
def pyStrip (s : String) : String :=
  ⟨((s.data.dropWhile Char.isWhitespace).reverse.dropWhile Char.isWhitespace).reverse⟩

/-- `re.sub(r',', '', t)`: remove every comma. -/
def removeCommas (s : String) : String :=
  ⟨s.data.filter (fun c => c ≠ ',')⟩

/-- `main_v2.remove_internal_commas`: strip, then delete every comma
(`re.sub(r',', '', str(text).strip())`); the `None` branch cannot arise for
the string cells built by `extract_spaced_table`. -/
def remove_internal_commas (s : String) : String :=
  removeCommas (pyStrip s)

/-! ## Stable insertion sorts (CPython `sorted`) -/

/-- Insert into an ascending-sorted list of rationals (skip past
smaller-or-equal elements). -/
def insertA (x : ℚ) : List ℚ → List ℚ
  | [] => [x]
  | y :: t => if y ≤ x then y :: insertA x t else x :: y :: t

/-- Python `sorted` on a list of rationals (ascending). -/
def sortA (l : List ℚ) : List ℚ := l.foldr insertA []

/-- A detected gap `(left_x, right_x, width)` as built by
`detect_column_boundaries`. -/
abbrev Gap : Type := ℚ × ℚ × ℚ

/-- Width component of a gap triple. -/
def gapWidth (p : Gap) : ℚ := p.2.2

/-- Stable descending insertion by gap width: an element is placed before
the first element of not-larger width, so equal-width gaps keep their
original relative order, as CPython's stable `sort(reverse=True)` does. -/
def insertG (p : Gap) : List Gap → List Gap
  | [] => [p]
  | q :: t => if gapWidth p < gapWidth q then q :: insertG p t else p :: q :: t

/-- `gaps.sort(key=lambda x: x[2], reverse=True)` (stable, descending). -/
def sortGapsDesc (l : List Gap) : List Gap := l.foldr insertG []

/-! ## `main_v2.detect_column_boundaries` -/

/-- The gap-collection loop: for consecutive distinct sorted positions,
keep `(x[i-1], x[i], gap)` whenever `gap > min_gap`. -/
def gapsOf (xs : List ℚ) (min_gap : ℚ) : List Gap :=
  (xs.zip xs.tail).filterMap
    (fun p => if min_gap < p.2 - p.1 then some (p.1, p.2, p.2 - p.1) else none)

/-- Python `max` over a list of rationals (the code only applies it to
non-empty lists; the empty default 0 is never used). -/
def pyMax : List ℚ → ℚ
  | [] => 0
  | a :: t => t.foldl max a

/-- Midpoint `(gaps[i][0] + gaps[i][1]) / 2` of a gap. -/
def midpoint (p : Gap) : ℚ := (p.1 + p.2.1) / 2

/-- `x_positions = sorted(list(set([x for x, _ in text_positions])))`. -/
def xPositionsOf (text_positions : List (ℚ × String)) : List ℚ :=
  sortA (text_positions.map Prod.fst).dedup

/-- The midpoints contributed by the boundary loop: the top
`min(6, len(gaps)+1) - 1` gaps by width (the guard `i < len(gaps)` of the
loop is always true because `min(6, len(gaps)+1) - 1 ≤ len(gaps)`). -/
def selectedMids (text_positions : List (ℚ × String)) (min_gap : ℚ) : List ℚ :=
  let gaps := gapsOf (xPositionsOf text_positions) min_gap
  ((sortGapsDesc gaps).take (min 6 (gaps.length + 1) - 1)).map midpoint

/-- `main_v2.detect_column_boundaries(text_positions, min_gap)`:
distinct x-positions are sorted; consecutive gaps wider than `min_gap`
are collected, sorted by width (descending, stable); the top
`min(6, len(gaps)+1) - 1` gaps contribute their midpoints; the left edge
`0` and right edge `max(x_positions) + 10` are added; the result is
returned sorted ascending. -/
def detect_column_boundaries (text_positions : List (ℚ × String)) (min_gap : ℚ) : List ℚ :=
  if text_positions.isEmpty then []
  else
    sortA (0 :: (selectedMids text_positions min_gap ++
      [pyMax (xPositionsOf text_positions) + 10]))

/-! ## `main_v2.extract_spaced_table` -/

/-- A word of `page.extract_words(use_text_flow=True)`: the fields the code
reads are `top` (vertical), `x1` (horizontal right edge) and `text`. -/
structure Word where
  top : ℚ
  x1 : ℚ
  text : String

/-- Python `round(q, 1)` (round half to even, on the exact rational
shadow of the float). -/
def round1 (q : ℚ) : ℚ :=
  let f : ℤ := ⌊10 * q⌋
  let r : ℚ := 10 * q - f
  (if r < 1 / 2 then (f : ℚ) else if 1 / 2 < r then (f : ℚ) + 1
   else if 2 ∣ f then (f : ℚ) else (f : ℚ) + 1) / 10

/-- `row_key = round(word['top'], 1)`. -/
def rowKeyOf (w : Word) : ℚ := round1 w.top

/-- The `(x1, text)` pairs collected for one row key, in input order
(the `defaultdict` append order). -/
def rowWords (ws : List Word) (k : ℚ) : List (ℚ × String) :=
  (ws.filter (fun w => rowKeyOf w = k)).map (fun w => (w.x1, w.text))

/-- The distinct row keys of a page, sorted ascending
(`sorted(rows.items(), key=lambda x: x[0])`). -/
def sortedRowKeys (ws : List Word) : List ℚ := sortA (ws.map rowKeyOf).dedup

/-- `all_text_positions`: the `(x, text)` pairs of all sorted rows,
flattened. -/
def allTextPositions (ws : List Word) : List (ℚ × String) :=
  (sortedRowKeys ws).flatMap (fun k => rowWords ws k)

/-- The inner `for col_idx, boundary in enumerate(...)` search: index of
the first element `b` with `x ≤ b`. -/
def firstLE (x : ℚ) : List ℚ → Option ℕ
  | [] => none
  | b :: t => if x ≤ b then some 0 else (firstLE x t).map (· + 1)

/-- The cell index chosen for a token: the first `col_idx` (enumerating
`columns[1:]`) whose boundary satisfies `x <= boundary`; `none` when the
inner `for` finds no boundary (then the token is skipped). -/
def assignCol (x : ℚ) (columns : List ℚ) : Option ℕ :=
  firstLE x (columns.drop 1)

/-- One step of the assignment loop: `row[col_idx] += f" {text}"`. -/
def placeWord (columns : List ℚ) (row : List String) (p : ℚ × String) : List String :=
  match assignCol p.1 columns with
  | some i => row.set i (row.getD i "" ++ (" " ++ p.2))
  | none => row

/-- The row-building loop body of `extract_spaced_table`: start from
`[""] * len(columns)` and place each word of the row in input order. -/
def buildRow (columns : List ℚ) (row_words : List (ℚ × String)) : List String :=
  row_words.foldl (placeWord columns) (List.replicate columns.length "")

/-- Final per-cell cleanup `remove_internal_commas(cell.strip())`. -/
def cleanCell (s : String) : String := remove_internal_commas (pyStrip s)

/-- `main_v2.extract_spaced_table(page, min_gap)` on the word list of a
page: group words into rows by rounded `top`, sort rows by key, detect
column boundaries from all positions, and build one cleaned row per row
key. -/
def extract_spaced_table (ws : List Word) (min_gap : ℚ) : List (List String) :=
  if ws.isEmpty then []
  else
    let columns := detect_column_boundaries (allTextPositions ws) min_gap
    (sortedRowKeys ws).map (fun k => (buildRow columns (rowWords ws k)).map cleanCell)

/-- The tokens of a row that land in cell `i`, in input order.  By
`buildRow_eq_join` below, cell `i` of `buildRow` is exactly the
concatenation of `" " ++ text` over this list, so this is the

token-level contents of the cell. -/
def cellTokens (columns : List ℚ) (row_words : List (ℚ × String)) (i : ℕ) : List (ℚ × String) :=
  row_words.filter (fun p => decide (assignCol p.1 columns = some i))

/-- Reading a built row back token by token: the tokens of cell 0, then of
cell 1, …  This is the token order an observer of the reconstructed row
sees. -/
def readOff (columns : List ℚ) (row_words : List (ℚ × String)) : List (ℚ × String) :=
  (List.range columns.length).flatMap (cellTokens columns row_words)

/-! ## The spaced-table materialization step of `main_v2.extract_tables_from_pdf`
(lines 121–128) -/

/-- `headers = spaced_table[0] if any(spaced_table[0]) else [f"Col_{i}" ...]`:
Python `any` over a list of strings is true iff some string is non-empty. -/
def spacedHeaders (spaced_table : List (List String)) : List String :=
  if (spaced_table.headD []).any (fun c => c ≠ "") then spaced_table.headD []
  else (List.range (spaced_table.headD []).length).map (fun i => "Col_" ++ toString i)

/-- Whether pandas treats a cell value as missing.  The cells of a spaced
table are Python `str` values, and a `str` is never NA in pandas, so this
is constantly `false`. -/
def isNA (_ : String) : Bool := false

/-- `DataFrame(...).dropna(how="all")` on the data rows: keep every row
that is not entirely missing. -/
def dropna_all (rows : List (List String)) : List (List String) :=
  rows.filter (fun r => !r.all isNA)

/-- The spaced-table branch of `extract_tables_from_pdf`: if the table is
non-empty, has more than one row, and some cell is non-empty, the saved
table is the header row plus `dropna(how="all")` of the remaining rows;
otherwise nothing is saved. -/
def materialize_spaced (spaced_table : List (List String)) :
    Option (List String × List (List String)) :=
  if spaced_table ≠ [] ∧ 1 < spaced_table.length ∧
      spaced_table.any (fun row => row.any (fun cell => 0 < cell.length)) then
    some (spacedHeaders spaced_table, dropna_all (spaced_table.drop 1))
  else none

/-! ## `main.py`: Stage-1 pre-filter score

`pre_filter_financial_page` aggregates four match counts computed from the
page text: `len(keyword_matches)`, `len(symbol_matches)`, `pattern_matches`
and `table_like_lines`.  The score arithmetic is embedded as a function of
those counts, exactly as in lines 89–144. -/

/-- `min(1.0, len(keyword_matches) * 0.3)`, contributed only when some
keyword matched. -/
def keywordScore (k : ℕ) : ℚ := if 0 < k then min 1 ((k : ℚ) * (3 / 10)) else 0

/-- `min(0.4, len(symbol_matches) * 0.2)`, contributed only when some
symbol matched. -/
def symbolScore (s : ℕ) : ℚ := if 0 < s then min (4 / 10) ((s : ℚ) * (2 / 10)) else 0

/-- `min(0.6, (pattern_matches / 5) * 0.6)`, contributed only when
`pattern_matches > 0`. -/
def patternScore (p : ℕ) : ℚ := if 0 < p then min (6 / 10) (((p : ℚ) / 5) * (6 / 10)) else 0

/-- `min(0.5, (table_like_lines / 10) * 0.5)`, contributed only when
`table_like_lines >= 3`. -/
def structureScore (t : ℕ) : ℚ := if 3 ≤ t then min (5 / 10) (((t : ℚ) / 10) * (5 / 10)) else 0

/-- The Stage-1 `prefilter_score` as a function of the four match counts. -/
def prefilterScore (k s p t : ℕ) : ℚ :=
  keywordScore k + symbolScore s + patternScore p + structureScore t

/-- `passes_prefilter = prefilter_score >= 0.4`. -/
def passesPrefilter (k s p t : ℕ) : Bool := decide ((4 / 10 : ℚ) ≤ prefilterScore k s p t)

/-! ## `main.py`: external classifier call and page loop -/

/-- The observable outcome of the DeepSeek interaction for one page:
either the `try` block of `check_financial_table_with_deepseek` reaches
the final `return` with a parsed verdict, or some step of it (transport
error, `raise_for_status`, `json.loads`, missing key) raises and the
`except` branch runs.  The network itself is external; this type is its
boolean+confidence contract. -/
inductive ApiOutcome where
  | ok (contains : Bool) (confidence : ℚ) (reason : String)
  | err (msg : String)

/-- The value returned by `check_financial_table_with_deepseek`: the
parsed triple on success, `(False, 0.0, "API error: ...")` when anything
in the `try` block raised. -/
def check_financial : ApiOutcome → Bool × ℚ × String
  | .ok c conf r => (c, conf, r)
  | .err m => (false, 0, "API error: " ++ m)

/-- One page as seen by the loop of `process_pdf_with_prefilter`:
its number, the length of its stripped extracted text, the Stage-1
verdict `pre_filter_financial_page` computes for it, and the outcome of
the external classifier interaction were it invoked. -/
structure Page where
  num : ℕ
  strippedLen : ℕ
  prefilterPass : Bool
  outcome : ApiOutcome

/-- The body of the page loop (lines 323–368): skip when the stripped
text is shorter than 100 characters, skip when Stage 1 fails, otherwise
call the classifier and accept iff
`has_financial_tables and confidence > 0.7`. -/
def processPage (p : Page) : Option ℕ :=
  if p.strippedLen < 100 then none
  else if p.prefilterPass = false then none
  else
    let v := check_financial p.outcome
    if v.1 = true ∧ (7 / 10 : ℚ) < v.2.1 then some p.num else none

/-- `process_pdf_with_prefilter`: the accepted page numbers, in order. -/
def process_pdf_with_prefilter (ps : List Page) : List ℕ :=
  ps.filterMap processPage

/-! # Lemmas -/

/-! ## The insertion sorts: permutation and sortedness -/

lemma insertA_perm (x : ℚ) (l : List ℚ) : (insertA x l).Perm (x :: l) := by
  induction l with
  | nil => simp [insertA]
  | cons y t ih =>
    by_cases h : y ≤ x
    · simpa [insertA, h] using ((ih.cons y).trans (List.Perm.swap x y t))
    · simp [insertA, h]

lemma sortA_perm (l : List ℚ) : (sortA l).Perm l := by
  induction l with
  | nil => simp [sortA]
  | cons x t ih => exact (insertA_perm x (sortA t)).trans (ih.cons x)

lemma mem_sortA {x : ℚ} {l : List ℚ} : x ∈ sortA l ↔ x ∈ l :=
  (sortA_perm l).mem_iff

lemma insertA_sorted {x : ℚ} {l : List ℚ} (h : l.Pairwise (· ≤ ·)) :
    (insertA x l).Pairwise (· ≤ ·) := by
  induction l with
  | nil => simp [insertA]
  | cons y t ih =>
    rcases List.pairwise_cons.mp h with ⟨hy, ht⟩
    by_cases hle : y ≤ x
    · rw [insertA, if_pos hle]
      refine List.pairwise_cons.mpr ⟨?_, ih ht⟩
      intro b hb
      rcases List.mem_cons.mp ((insertA_perm x t).mem_iff.mp hb) with rfl | hb
      · exact hle
      · exact hy b hb
    · rw [insertA, if_neg hle]
      refine List.pairwise_cons.mpr ⟨?_, h⟩
      intro b hb
      rcases List.mem_cons.mp hb with rfl | hb
      · exact le_of_not_le hle
      · exact (le_of_not_le hle).trans (hy b hb)

lemma sortA_sorted (l : List ℚ) : (sortA l).Pairwise (· ≤ ·) := by
  induction l with
  | nil => simp [sortA]
  | cons x t ih => exact insertA_sorted ih

lemma insertG_perm (p : Gap) (l : List Gap) : (insertG p l).Perm (p :: l) := by
  induction l with
  | nil => simp [insertG]
  | cons q t ih =>
    by_cases h : gapWidth p < gapWidth q
    · simpa [insertG, h] using ((ih.cons q).trans (List.Perm.swap p q t))
    · simp [insertG, h]

lemma sortGapsDesc_perm (l : List Gap) : (sortGapsDesc l).Perm l := by
  induction l with
  | nil => simp [sortGapsDesc]
  | cons p t ih => exact (insertG_perm p (sortGapsDesc t)).trans (ih.cons p)

/-! ## `pyMax` is an upper bound -/

lemma le_foldl_max (t : List ℚ) (b : ℚ) : b ≤ t.foldl max b := by
  induction t generalizing b with
  | nil => simp
  | cons c t ih => exact (le_max_left b c).trans (ih (max b c))

lemma mem_le_foldl_max {x : ℚ} {t : List ℚ} (hx : x ∈ t) (b : ℚ) : x ≤ t.foldl max b := by
  induction t generalizing b with
  | nil => cases hx
  | cons c t ih =>
    rcases List.mem_cons.mp hx with rfl | hx
    · exact (le_max_right b x).trans (le_foldl_max t (max b x))
    · exact ih hx (max b c)

lemma le_pyMax {x : ℚ} {l : List ℚ} (hx : x ∈ l) : x ≤ pyMax l := by
  cases l with
  | nil => cases hx
  | cons a t =>
    rcases List.mem_cons.mp hx with rfl | hx
    · exact le_foldl_max t x
    · exact mem_le_foldl_max hx a

/-! ## Heads and last elements of sorted lists -/

lemma sorted_headD_le {l : List ℚ} (h : l.Pairwise (· ≤ ·)) {x : ℚ} (hx : x ∈ l) :
    l.headD 0 ≤ x := by
  cases l with
  | nil => cases hx
  | cons a t =>
    rcases List.mem_cons.mp hx with rfl | hx
    · simp
    · exact (List.pairwise_cons.mp h).1 x hx

lemma getLastD_cons_of_ne {t : List ℚ} (ht : t ≠ []) (a d : ℚ) :
    (a :: t).getLastD d = t.getLastD d := by
  cases t with
  | nil => exact absurd rfl ht
  | cons b u => simp [List.getLastD_eq_getLast?]

lemma getLastD_mem {l : List ℚ} (hl : l ≠ []) (d : ℚ) : l.getLastD d ∈ l := by
  induction l with
  | nil => exact absurd rfl hl
  | cons a t ih =>
    cases t with
    | nil => simp
    | cons b u =>
      rw [getLastD_cons_of_ne (by simp) a d]
      exact List.mem_cons_of_mem a (ih (by simp))

lemma sorted_le_getLastD {l : List ℚ} (h : l.Pairwise (· ≤ ·)) {x : ℚ} (hx : x ∈ l) :
    x ≤ l.getLastD 0 := by
  induction l with
  | nil => cases hx
  | cons a t ih =>
    rcases List.pairwise_cons.mp h with ⟨ha, ht⟩
    cases t with
    | nil =>
      rcases List.mem_cons.mp hx with rfl | hx
      · simp
      · cases hx
    | cons b u =>
      rw [getLastD_cons_of_ne (by simp) a 0]
      rcases List.mem_cons.mp hx with rfl | hx
      · exact ha _ (getLastD_mem (l := b :: u) (by simp) 0)
      · exact ih ht hx

/-! ## Consecutive pairs of a sorted list -/

lemma mem_zip_tail {l : List ℚ} {p : ℚ × ℚ} (hp : p ∈ l.zip l.tail) :
    p.1 ∈ l ∧ p.2 ∈ l := by
  induction l with
  | nil => cases hp
  | cons a t ih =>
    cases t with
    | nil => cases hp
    | cons b u =>
      rcases List.mem_cons.mp hp with rfl | hp
      · exact ⟨List.mem_cons_self _ _, List.mem_cons_of_mem a (List.mem_cons_self _ _)⟩
      · have := ih hp
        exact ⟨List.mem_cons_of_mem a this.1, List.mem_cons_of_mem a this.2⟩

lemma zip_tail_lt {l : List ℚ} (h : l.Pairwise (· < ·)) {p : ℚ × ℚ}
    (hp : p ∈ l.zip l.tail) : p.1 < p.2 := by
  induction l with
  | nil => cases hp
  | cons a t ih =>
    cases t with
    | nil => cases hp
    | cons b u =>
      rcases List.mem_cons.mp hp with rfl | hp
      · exact (List.pairwise_cons.mp h).1 b (List.mem_cons_self _ _)
      · exact ih (List.pairwise_cons.mp h).2 hp

lemma zip_tail_pairwise {l : List ℚ} (h : l.Pairwise (· ≤ ·)) :
    (l.zip l.tail).Pairwise (fun p q => p.2 ≤ q.1) := by
  induction l with
  | nil => simp
  | cons a t ih =>
    cases t with
    | nil => simp
    | cons b u =>
      rcases List.pairwise_cons.mp h with ⟨ha, ht⟩
      refine List.pairwise_cons.mpr ⟨?_, ih ht⟩
      intro q hq
      have hq1 : q.1 ∈ b :: u := (mem_zip_tail hq).1
      rcases List.mem_cons.mp hq1 with h1 | h1
      · exact le_of_eq h1.symm
      · exact (List.pairwise_cons.mp ht).1 q.1 h1

/-! ## Structure of the gap list -/

lemma gapsOf_eq_map_filter (xs : List ℚ) (g : ℚ) :
    gapsOf xs g = ((xs.zip xs.tail).filter (fun p => decide (g < p.2 - p.1))).map
      (fun p => (p.1, p.2, p.2 - p.1)) := by
  rw [gapsOf]
  induction (xs.zip xs.tail) with
  | nil => rfl
  | cons p t ih =>
    by_cases hp : g < p.2 - p.1
    · simp [List.filterMap_cons, List.filter_cons, hp, ih]
    · simp [List.filterMap_cons, List.filter_cons, hp, ih]

lemma mem_gapsOf {xs : List ℚ} {g : ℚ} {q : Gap} (hq : q ∈ gapsOf xs g) :
    ∃ p : ℚ × ℚ, p ∈ xs.zip xs.tail ∧ g < p.2 - p.1 ∧ q = (p.1, p.2, p.2 - p.1) := by
  rw [gapsOf_eq_map_filter] at hq
  rcases List.mem_map.mp hq with ⟨p, hp, rfl⟩
  rcases List.mem_filter.mp hp with ⟨hp1, hp2⟩
  exact ⟨p, hp1, of_decide_eq_true hp2, rfl⟩

/-- Midpoints of the collected gaps are strictly increasing (gaps are
disjoint consecutive intervals of a sorted position list). -/
lemma gapsOf_mids_pairwise {xs : List ℚ} (hs : xs.Pairwise (· ≤ ·))
    (hlt : xs.Pairwise (· < ·)) (g : ℚ) :
    ((gapsOf xs g).map midpoint).Pairwise (· < ·) := by
  rw [gapsOf_eq_map_filter, List.map_map]
  have hzip : (xs.zip xs.tail).Pairwise (fun p q => p.2 ≤ q.1) := zip_tail_pairwise hs
  have hfil : ((xs.zip xs.tail).filter (fun p => decide (g < p.2 - p.1))).Pairwise
      (fun p q => p.2 ≤ q.1) :=
    List.Pairwise.sublist (List.filter_sublist _) hzip
  rw [List.pairwise_map]
  refine hfil.imp_of_mem ?_
  intro p q hp hq hpq
  have hp' : p.1 < p.2 := zip_tail_lt hlt (List.mem_of_mem_filter hp)
  have hq' : q.1 < q.2 := zip_tail_lt hlt (List.mem_of_mem_filter hq)
  show midpoint (p.1, p.2, p.2 - p.1) < midpoint (q.1, q.2, q.2 - q.1)
  simp only [midpoint]
  have h1 : (p.1 + p.2) / 2 < p.2 := by linarith
  have h2 : q.1 < (q.1 + q.2) / 2 := by linarith
  linarith

/-! ## `firstLE` facts -/

lemma firstLE_lt_length {x : ℚ} {l : List ℚ} {i : ℕ} (h : firstLE x l = some i) :
    i < l.length := by
  induction l generalizing i with
  | nil => cases h
  | cons b t ih =>
    by_cases hb : x ≤ b
    · rw [firstLE, if_pos hb] at h
      cases h
      simp
    · rw [firstLE, if_neg hb] at h
      rcases Option.map_eq_some'.mp h with ⟨j, hj, rfl⟩
      exact Nat.succ_lt_succ (ih hj)

lemma firstLE_isSome {x : ℚ} {l : List ℚ} {b : ℚ} (hb : b ∈ l) (hx : x ≤ b) :
    ∃ i, firstLE x l = some i := by
  induction l with
  | nil => cases hb
  | cons c t ih =>
    by_cases hc : x ≤ c
    · exact ⟨0, by rw [firstLE, if_pos hc]⟩
    · rcases List.mem_cons.mp hb with rfl | hb'
      · exact absurd hx hc
      · rcases ih hb' with ⟨j, hj⟩
        exact ⟨j + 1, by rw [firstLE, if_neg hc, hj]; rfl⟩

/-- If weaker predicates fire earlier: monotonicity of the first-hit
index in the threshold `x`. -/
lemma firstLE_mono {x y : ℚ} (hxy : x ≤ y) {l : List ℚ} {j : ℕ}
    (hy : firstLE y l = some j) : ∃ i, firstLE x l = some i ∧ i ≤ j := by
  induction l generalizing j with
  | nil => cases hy
  | cons b t ih =>
    by_cases hxb : x ≤ b
    · exact ⟨0, by rw [firstLE, if_pos hxb], Nat.zero_le j⟩
    · have hyb : ¬ y ≤ b := fun hc => hxb (hxy.trans hc)
      rw [firstLE, if_neg hyb] at hy
      rcases Option.map_eq_some'.mp hy with ⟨j', hj', rfl⟩
      rcases ih hj' with ⟨i, hi, hij⟩
      exact ⟨i + 1, by rw [firstLE, if_neg hxb, hi]; rfl, Nat.succ_le_succ hij⟩

/-- The first index whose element satisfies `x ≤ ·`, when all earlier
elements are strictly below `x`. -/
lemma firstLE_eq_of_getElem {x : ℚ} {l : List ℚ} {i : ℕ} (hi : i < l.length)
    (hx : x ≤ l[i]) (hlt : ∀ j (hj : j < i), l.get ⟨j, hj.trans hi⟩ < x) :
    firstLE x l = some i := by
  induction l generalizing i with
  | nil => cases hi
  | cons b t ih =>
    cases i with
    | zero => rw [firstLE, if_pos (by simpa using hx)]
    | succ i' =>
      have hb : b < x := by simpa using hlt 0 (Nat.succ_pos i')
      rw [firstLE, if_neg (not_le.mpr hb)]
      have := ih (i := i') (Nat.lt_of_succ_lt_succ hi) (by simpa using hx)
        (fun j hj => by simpa using hlt (j + 1) (Nat.succ_lt_succ hj))
      rw [this]
      rfl

/-! ## Structure of the detected boundaries -/

lemma xPositionsOf_sorted (tps : List (ℚ × String)) :
    (xPositionsOf tps).Pairwise (· ≤ ·) := sortA_sorted _

lemma xPositionsOf_nodup (tps : List (ℚ × String)) : (xPositionsOf tps).Nodup :=
  (sortA_perm _).symm.nodup (List.nodup_dedup _)

lemma xPositionsOf_pairwise_lt (tps : List (ℚ × String)) :
    (xPositionsOf tps).Pairwise (· < ·) := by
  have h1 := xPositionsOf_sorted tps
  have h2 := xPositionsOf_nodup tps
  exact (h1.and h2).imp (fun h => lt_of_le_of_ne h.1 h.2)

lemma mem_xPositionsOf {x : ℚ} {tps : List (ℚ × String)} :
    x ∈ xPositionsOf tps ↔ x ∈ tps.map Prod.fst := by
  rw [xPositionsOf, mem_sortA, List.mem_dedup]

lemma xPositionsOf_ne_nil {tps : List (ℚ × String)} (h : tps ≠ []) :
    xPositionsOf tps ≠ [] := by
  rcases List.exists_mem_of_ne_nil tps h with ⟨p, hp⟩
  have : p.1 ∈ xPositionsOf tps := mem_xPositionsOf.mpr (List.mem_map_of_mem Prod.fst hp)
  exact List.ne_nil_of_mem this

lemma detect_eq {tps : List (ℚ × String)} (h : tps ≠ []) (g : ℚ) :
    detect_column_boundaries tps g =
      sortA (0 :: (selectedMids tps g ++ [pyMax (xPositionsOf tps) + 10])) := by
  rw [detect_column_boundaries, if_neg (by simpa using h)]

lemma detect_perm {tps : List (ℚ × String)} (h : tps ≠ []) (g : ℚ) :
    (detect_column_boundaries tps g).Perm
      (0 :: (selectedMids tps g ++ [pyMax (xPositionsOf tps) + 10])) := by
  rw [detect_eq h g]
  exact sortA_perm _

lemma detect_sorted (tps : List (ℚ × String)) (g : ℚ) :
    (detect_column_boundaries tps g).Pairwise (· ≤ ·) := by
  by_cases h : tps = []
  · simp [h, detect_column_boundaries]
  · rw [detect_eq h g]
    exact sortA_sorted _

lemma mem_detect {tps : List (ℚ × String)} (h : tps ≠ []) (g : ℚ) {b : ℚ} :
    b ∈ detect_column_boundaries tps g ↔
      b = 0 ∨ b ∈ selectedMids tps g ∨ b = pyMax (xPositionsOf tps) + 10 := by
  rw [(detect_perm h g).mem_iff]
  simp

lemma detect_length {tps : List (ℚ × String)} (h : tps ≠ []) (g : ℚ) :
    (detect_column_boundaries tps g).length = (selectedMids tps g).length + 2 := by
  have := (detect_perm h g).length_eq
  simp at this
  omega

/-- Each selected midpoint comes from a collected gap. -/
lemma selectedMids_subset {m : ℚ} {tps : List (ℚ × String)} {g : ℚ}
    (hm : m ∈ selectedMids tps g) :
    m ∈ (gapsOf (xPositionsOf tps) g).map midpoint := by
  rw [selectedMids] at hm
  rcases List.mem_map.mp hm with ⟨q, hq, rfl⟩
  have h1 : q ∈ sortGapsDesc (gapsOf (xPositionsOf tps) g) :=
    (List.take_sublist _ _).mem hq
  exact List.mem_map_of_mem midpoint ((sortGapsDesc_perm _).mem_iff.mp h1)

/-- Each selected midpoint lies strictly between two distinct positions. -/
lemma selectedMids_between {m : ℚ} {tps : List (ℚ × String)} {g : ℚ}
    (hm : m ∈ selectedMids tps g) :
    ∃ a b : ℚ, a ∈ xPositionsOf tps ∧ b ∈ xPositionsOf tps ∧ a < b ∧ m = (a + b) / 2 := by
  rcases List.mem_map.mp (selectedMids_subset hm) with ⟨q, hq, rfl⟩
  rcases mem_gapsOf hq with ⟨p, hp, _, rfl⟩
  rcases mem_zip_tail hp with ⟨h1, h2⟩
  exact ⟨p.1, p.2, h1, h2, zip_tail_lt (xPositionsOf_pairwise_lt tps) hp, rfl⟩

/-- The selected midpoints are pairwise distinct. -/
lemma selectedMids_nodup (tps : List (ℚ × String)) (g : ℚ) :

    (selectedMids tps g).Nodup := by
  have h1 : ((gapsOf (xPositionsOf tps) g).map midpoint).Pairwise (· < ·) :=
    gapsOf_mids_pairwise (xPositionsOf_sorted tps) (xPositionsOf_pairwise_lt tps) g
  have h2 : ((gapsOf (xPositionsOf tps) g).map midpoint).Nodup :=
    h1.imp ne_of_lt
  have h3 : ((sortGapsDesc (gapsOf (xPositionsOf tps) g)).map midpoint).Nodup :=
    ((sortGapsDesc_perm _).map midpoint).symm.nodup h2
  rw [selectedMids]
  exact (((List.take_sublist _ _).map midpoint)).nodup h3

/-- With non-negative positions, every selected midpoint is strictly
positive and strictly below the right edge. -/
lemma selectedMids_bounds {tps : List (ℚ × String)} {g : ℚ}
    (hpos : ∀ x ∈ tps.map Prod.fst, 0 ≤ x) {m : ℚ} (hm : m ∈ selectedMids tps g) :
    0 < m ∧ m < pyMax (xPositionsOf tps) + 10 := by
  rcases selectedMids_between hm with ⟨a, b, ha, hb, hab, rfl⟩
  have ha0 : 0 ≤ a := hpos a (mem_xPositionsOf.mp ha)
  have hbM : b ≤ pyMax (xPositionsOf tps) := le_pyMax hb
  constructor
  · linarith
  · linarith

/-- With non-negative positions the multiset of boundaries has no
duplicates. -/
lemma detect_nodup {tps : List (ℚ × String)} (h : tps ≠ []) (g : ℚ)
    (hpos : ∀ x ∈ tps.map Prod.fst, 0 ≤ x) :
    (detect_column_boundaries tps g).Nodup := by
  have hM : 0 ≤ pyMax (xPositionsOf tps) := by
    rcases List.exists_mem_of_ne_nil _ (xPositionsOf_ne_nil h) with ⟨x, hx⟩
    exact (hpos x (mem_xPositionsOf.mp hx)).trans (le_pyMax hx)
  refine (detect_perm h g).symm.nodup ?_
  refine List.nodup_cons.mpr ⟨?_, ?_⟩
  · intro h0
    rcases List.mem_append.mp h0 with h0 | h0
    · exact absurd (selectedMids_bounds hpos h0).1 (by simp)
    · rcases List.mem_singleton.mp h0 with h0
      linarith [h0]
  · refine List.Nodup.append (selectedMids_nodup tps g) (List.nodup_singleton _) ?_
    intro m hm hm'
    rcases List.mem_singleton.mp hm' with rfl
    exact absurd (selectedMids_bounds hpos hm).2 (by simp)

/-! # Claim theorems -/

/-- **C2.** For token x-positions `[10, 12, 50, 52, 100, 102]` and
threshold 10, `detect_column_boundaries` returns the ascending list built
from the left edge 0, the midpoints `(12+50)/2 = 31` and
`(52+100)/2 = 76` of the two gaps wider than 10, and the right edge
`102 + 10 = 112`, i.e. `[0, 31, 76, 112]` — exactly 3 column bands.
(The spec's text lists the approximate value 81 for the second midpoint;
the exact arithmetic of the code yields 76.) -/
theorem detect_boundaries_example_scenario :
    detect_column_boundaries
        [(10, "a"), (12, "b"), (50, "c"), (52, "d"), (100, "e"), (102, "f")] 10
      = [0, 31, 76, 112] ∧
    (detect_column_boundaries
        [(10, "a"), (12, "b"), (50, "c"), (52, "d"), (100, "e"), (102, "f")] 10).length - 1
      = 3 := by
  constructor
  · norm_num [detect_column_boundaries, selectedMids, xPositionsOf, sortA, insertA, gapsOf,
      List.filterMap_cons, sortGapsDesc, insertG, gapWidth, midpoint, pyMax,
      List.dedup_cons_of_not_mem, List.dedup_cons_of_mem]
  · norm_num [detect_column_boundaries, selectedMids, xPositionsOf, sortA, insertA, gapsOf,
      List.filterMap_cons, sortGapsDesc, insertG, gapWidth, midpoint, pyMax,
      List.dedup_cons_of_not_mem, List.dedup_cons_of_mem]

/-- **C3.** If no consecutive gap between the distinct sorted positions
strictly exceeds the threshold, the detector returns exactly the two
outer boundaries: the left edge 0 and `max(x_positions) + 10`. -/
theorem detect_boundaries_no_gap_single_column (tps : List (ℚ × String)) (g : ℚ)
    (htps : tps ≠ [])
    (hgap : ∀ p ∈ (xPositionsOf tps).zip (xPositionsOf tps).tail, p.2 - p.1 ≤ g) :
    (detect_column_boundaries tps g).Perm [0, pyMax (xPositionsOf tps) + 10] ∧
    (detect_column_boundaries tps g).length = 2 := by
  have hnil : gapsOf (xPositionsOf tps) g = [] := by
    rw [gapsOf, List.filterMap_eq_nil_iff]
    intro p hp
    rw [if_neg (not_lt.mpr (hgap p hp))]
  have hmids : selectedMids tps g = [] := by
    rw [selectedMids, hnil]
    rfl
  constructor
  · have := detect_perm htps g
    rw [hmids] at this
    simpa using this
  · rw [detect_length htps g, hmids]
    rfl

/-- **C3 witness.** Positions 5 and 9 with threshold 10: no qualifying
gap, so the two outer bounds are the whole result. -/
theorem detect_boundaries_no_gap_single_column_witness :
    ([((5 : ℚ), "a"), (9, "b")] ≠ [] ∧
      ∀ p ∈ (xPositionsOf [((5 : ℚ), "a"), (9, "b")]).zip
        (xPositionsOf [((5 : ℚ), "a"), (9, "b")]).tail, p.2 - p.1 ≤ 10) ∧
    ((detect_column_boundaries [((5 : ℚ), "a"), (9, "b")] 10).Perm
      [0, pyMax (xPositionsOf [((5 : ℚ), "a"), (9, "b")]) + 10] ∧
    (detect_column_boundaries [((5 : ℚ), "a"), (9, "b")] 10).length = 2) := by
  have h1 : ([((5 : ℚ), "a"), (9, "b")] : List (ℚ × String)) ≠ [] := by simp
  have h2 : ∀ p ∈ (xPositionsOf [((5 : ℚ), "a"), (9, "b")]).zip
      (xPositionsOf [((5 : ℚ), "a"), (9, "b")]).tail, p.2 - p.1 ≤ 10 := by
    norm_num [xPositionsOf, sortA, insertA, List.dedup_cons_of_not_mem,
      List.dedup_cons_of_mem]
  exact ⟨⟨h1, h2⟩, detect_boundaries_no_gap_single_column _ 10 h1 h2⟩

/-- **C4 counterexample.** For the positions −10 and 10 (threshold 10)
the boundary list is `[0, 0, 20]`: it is not strictly increasing and its
first element 0 is not `≤` the minimum position −10, so the claimed
invariant fails for lists with negative x-positions. -/
theorem detect_boundaries_invariant_counterexample :
    detect_column_boundaries [((-10 : ℚ), "x"), (10, "y")] 10 = [0, 0, 20] ∧
    ¬ (detect_column_boundaries [((-10 : ℚ), "x"), (10, "y")] 10).Chain' (· < ·) ∧
    ¬ (detect_column_boundaries [((-10 : ℚ), "x"), (10, "y")] 10).headD 0 ≤ (-10 : ℚ) := by
  have hval : detect_column_boundaries [((-10 : ℚ), "x"), (10, "y")] 10 = [0, 0, 20] := by
    norm_num [detect_column_boundaries, selectedMids, xPositionsOf, sortA, insertA, gapsOf,
      List.filterMap_cons, sortGapsDesc, insertG, gapWidth, midpoint, pyMax,
      List.dedup_cons_of_not_mem, List.dedup_cons_of_mem]
  refine ⟨hval, ?_, ?_⟩
  · rw [hval]
    intro hc
    rcases hc with _ | ⟨h, _⟩
    exact absurd h (by norm_num)
  · rw [hval]
    norm_num

/-- **C4 (amended).** For every non-empty list of *non-negative* token
x-positions (the coordinate range the token source produces), the
boundary sequence is strictly increasing, its first element is `≤` every
position and its last element is `≥` every position. -/
theorem detect_boundaries_invariant_nonneg (tps : List (ℚ × String)) (g : ℚ)
    (htps : tps ≠ []) (hpos : ∀ x ∈ tps.map Prod.fst, 0 ≤ x) :
    (detect_column_boundaries tps g).Chain' (· < ·) ∧
    ∀ x ∈ tps.map Prod.fst,
      (detect_column_boundaries tps g).headD 0 ≤ x ∧
      x ≤ (detect_column_boundaries tps g).getLastD 0 := by
  have hsorted := detect_sorted tps g
  have hnodup := detect_nodup htps g hpos
  constructor
  · exact List.Pairwise.chain' ((hsorted.and hnodup).imp (fun h => lt_of_le_of_ne h.1 h.2))
  · intro x hx
    have hxmem : x ∈ xPositionsOf tps := mem_xPositionsOf.mpr hx
    have h0 : (0 : ℚ) ∈ detect_column_boundaries tps g := (mem_detect htps g).mpr (Or.inl rfl)
    have hM : pyMax (xPositionsOf tps) + 10 ∈ detect_column_boundaries tps g :=
      (mem_detect htps g).mpr (Or.inr (Or.inr rfl))
    constructor
    · exact (sorted_headD_le hsorted h0).trans (hpos x hx)
    · exact ((le_pyMax hxmem).trans (by linarith)).trans (sorted_le_getLastD hsorted hM)

/-- **C4 witness.** The non-negative page `[(10,"a"), (30,"b")]` with
threshold 10: the invariant holds there. -/
theorem detect_boundaries_invariant_nonneg_witness :
    (([((10 : ℚ), "a"), (30, "b")] : List (ℚ × String)) ≠ [] ∧
      ∀ x ∈ ([((10 : ℚ), "a"), (30, "b")] : List (ℚ × String)).map Prod.fst, 0 ≤ x) ∧
    ((detect_column_boundaries [((10 : ℚ), "a"), (30, "b")] 10).Chain' (· < ·) ∧
    ∀ x ∈ ([((10 : ℚ), "a"), (30, "b")] : List (ℚ × String)).map Prod.fst,
      (detect_column_boundaries [((10 : ℚ), "a"), (30, "b")] 10).headD 0 ≤ x ∧
      x ≤ (detect_column_boundaries [((10 : ℚ), "a"), (30, "b")] 10).getLastD 0) := by
  have h1 : ([((10 : ℚ), "a"), (30, "b")] : List (ℚ × String)) ≠ [] := by simp
  have h2 : ∀ x ∈ ([((10 : ℚ), "a"), (30, "b")] : List (ℚ × String)).map Prod.fst, 0 ≤ x := by
    norm_num
  exact ⟨⟨h1, h2⟩, detect_boundaries_invariant_nonneg _ 10 h1 h2⟩

/-! ## Membership of tokens in the page decomposition -/

lemma mem_rowWords_of_mem {ws : List Word} {w : Word} (hw : w ∈ ws) :
    (w.x1, w.text) ∈ rowWords ws (rowKeyOf w) := by
  rw [rowWords]
  refine List.mem_map.mpr ⟨w, ?_, rfl⟩
  exact List.mem_filter.mpr ⟨hw, by simp⟩

lemma mem_sortedRowKeys_of_mem {ws : List Word} {w : Word} (hw : w ∈ ws) :
    rowKeyOf w ∈ sortedRowKeys ws := by
  rw [sortedRowKeys, mem_sortA, List.mem_dedup]
  exact List.mem_map_of_mem rowKeyOf hw

lemma mem_allTextPositions_of_mem {ws : List Word} {w : Word} (hw : w ∈ ws) :
    (w.x1, w.text) ∈ allTextPositions ws := by
  rw [allTextPositions]
  exact List.mem_flatMap.mpr ⟨rowKeyOf w, mem_sortedRowKeys_of_mem hw, mem_rowWords_of_mem hw⟩

lemma getLastD_mem_drop_one {l : List ℚ} (h : 2 ≤ l.length) (d : ℚ) :
    l.getLastD d ∈ l.drop 1 := by
  cases l with
  | nil => simp at h
  | cons a t =>
    have ht : t ≠ [] := by
      intro hc
      rw [hc] at h
      simp at h
    rw [getLastD_cons_of_ne ht a d]
    simpa using getLastD_mem ht d

/-- Every x-position of the page satisfies `assignCol _ = some _`: the
inner search always hits a boundary because the last boundary is at least
`max(x_positions) + 10`. -/
lemma assignCol_isSome_of_mem_page {ws : List Word} (g : ℚ) {x : ℚ}
    (hx : x ∈ (allTextPositions ws).map Prod.fst) :
    ∃ i, assignCol x (detect_column_boundaries (allTextPositions ws) g) = some i := by
  set tps := allTextPositions ws with htps
  have hne : tps ≠ [] := by
    rcases List.mem_map.mp hx with ⟨p, hp, rfl⟩
    exact List.ne_nil_of_mem hp
  set cols := detect_column_boundaries tps g with hcols
  have hlen : 2 ≤ cols.length := by
    rw [hcols, detect_length hne g]
    omega
  have hlast_mem : cols.getLastD 0 ∈ cols.drop 1 := getLastD_mem_drop_one hlen 0
  have hM : pyMax (xPositionsOf tps) + 10 ∈ cols := (mem_detect hne g).mpr (Or.inr (Or.inr rfl))
  have hxM : x ≤ pyMax (xPositionsOf tps) := le_pyMax (mem_xPositionsOf.mpr hx)
  have hxlast : x ≤ cols.getLastD 0 := by
    have := sorted_le_getLastD (detect_sorted tps g) hM
    rw [← hcols] at this
    linarith
  rcases firstLE_isSome hlast_mem hxlast with ⟨i, hi⟩
  exact ⟨i, hi⟩

/-- **C5.** Every token of a page is assigned to exactly one cell by the
assignment step run against the boundaries detected from that same
page: `assignCol` returns a unique column index and the token appears in
that cell's token list; no token is dropped. -/
theorem token_assigned_to_exactly_one_cell (ws : List Word) (g : ℚ) (w : Word)
    (hw : w ∈ ws) :
    ∃ i, assignCol w.x1 (detect_column_boundaries (allTextPositions ws) g) = some i ∧
      (w.x1, w.text) ∈ cellTokens (detect_column_boundaries (allTextPositions ws) g)
        (rowWords ws (rowKeyOf w)) i ∧
      ∀ j, assignCol w.x1 (detect_column_boundaries (allTextPositions ws) g) = some j →
        j = i := by
  have hx : w.x1 ∈ (allTextPositions ws).map Prod.fst := by
    exact List.mem_map.mpr ⟨(w.x1, w.text), mem_allTextPositions_of_mem hw, rfl⟩
  rcases assignCol_isSome_of_mem_page g hx with ⟨i, hi⟩
  refine ⟨i, hi, ?_, ?_⟩
  · rw [cellTokens]
    refine List.mem_filter.mpr ⟨mem_rowWords_of_mem hw, ?_⟩
    simpa using hi
  · intro j hj
    rw [hi] at hj
    exact (Option.some.inj hj).symm

/-- **C5 witness.** A concrete two-word page: the word at `x1 = 20` is
assigned to exactly one cell. -/
theorem token_assigned_to_exactly_one_cell_witness :
    (⟨0, 20, "b"⟩ : Word) ∈ [(⟨0, 5, "a"⟩ : Word), ⟨0, 20, "b"⟩] ∧
    ∃ i, assignCol (20 : ℚ)
        (detect_column_boundaries (allTextPositions [(⟨0, 5, "a"⟩ : Word), ⟨0, 20, "b"⟩]) 10)
        = some i ∧
      ((20 : ℚ), "b") ∈ cellTokens
        (detect_column_boundaries (allTextPositions [(⟨0, 5, "a"⟩ : Word), ⟨0, 20, "b"⟩]) 10)
        (rowWords [(⟨0, 5, "a"⟩ : Word), ⟨0, 20, "b"⟩] (rowKeyOf ⟨0, 20, "b"⟩)) i ∧
      ∀ j, assignCol (20 : ℚ)
        (detect_column_boundaries (allTextPositions [(⟨0, 5, "a"⟩ : Word), ⟨0, 20, "b"⟩]) 10)
          = some j → j = i := by
  have hw : (⟨0, 20, "b"⟩ : Word) ∈ [(⟨0, 5, "a"⟩ : Word), ⟨0, 20, "b"⟩] := by simp
  exact ⟨hw, token_assigned_to_exactly_one_cell _ 10 _ hw⟩

/-- **C6.** A token lying exactly on a boundary coordinate is assigned to
the lower-indexed (leftward) column band: if `x` equals boundary `i + 1`
of a strictly increasing boundary list, the chosen cell is band `i`,
whose right edge is that boundary.  The assignment (indeed the whole
extraction) is a pure function, hence deterministic: repeated runs on
the same input produce the identical grid. -/
theorem boundary_tie_assigned_leftward (bs : List ℚ) (i : ℕ) (hlen : i + 1 < bs.length)
    (hs : bs.Chain' (· < ·)) (x : ℚ) (hx : x = bs[i + 1]) :
    assignCol x bs = some i ∧
    ∀ (ws : List Word) (g : ℚ), extract_spaced_table ws g = extract_spaced_table ws g := by
  refine ⟨?_, fun ws g => rfl⟩
  have hpw : bs.Pairwise (· < ·) := List.chain'_iff_pairwise.mp hs
  have hgetlt := List.pairwise_iff_getElem.mp hpw
  have hdlen : i < (bs.drop 1).length := by
    rw [List.length_drop]
    omega
  rw [assignCol]
  refine firstLE_eq_of_getElem hdlen ?_ ?_
  · rw [List.getElem_drop]
    exact le_of_eq (by simpa [Nat.add_comm] using hx)
  · intro j hj
    rw [List.get_eq_getElem, List.getElem_drop]
    have : bs[1 + j] < bs[i + 1] := by
      refine hgetlt (1 + j) (i + 1) (by omega) hlen (by omega)
    rw [hx]
    simpa using this

/-- **C6 witness.** Boundaries `[0, 5, 10]` and a token exactly at the
internal boundary 5: it lands in band 0 (left of that boundary). -/
theorem boundary_tie_assigned_leftward_witness :
    (0 + 1 < ([0, 5, 10] : List ℚ).length ∧ ([0, 5, 10] : List ℚ).Chain' (· < ·) ∧
      (5 : ℚ) = ([0, 5, 10] : List ℚ)[0 + 1]) ∧
    (assignCol 5 [0, 5, 10] = some 0 ∧
    ∀ (ws : List Word) (g : ℚ), extract_spaced_table ws g = extract_spaced_table ws g) := by
  have h1 : 0 + 1 < ([0, 5, 10] : List ℚ).length := by simp
  have h2 : ([0, 5, 10] : List ℚ).Chain' (· < ·) := by
    simp only [List.chain'_cons, List.chain'_singleton, and_true]
    norm_num
  have h3 : (5 : ℚ) = ([0, 5, 10] : List ℚ)[0 + 1] := rfl
  exact ⟨⟨h1, h2, h3⟩, boundary_tie_assigned_leftward [0, 5, 10] 0 h1 h2 5 h3⟩

/-! ## The built row, cell by cell -/

lemma join_cons (s : String) (l : List String) :
    String.join (s :: l) = s ++ String.join l := by
  cases s with
  | mk d =>
    rw [String.join_eq, String.join_eq]
    rfl

lemma map_getD_range (l : List String) :
    (List.range l.length).map (fun i => l.getD i "") = l := by
  induction l with
  | nil => rfl
  | cons a t ih =>
    rw [List.length_cons, List.range_succ_eq_map, List.map_cons, List.map_map,
      List.getD_cons_zero]
    have hmap : (List.range t.length).map ((fun i => (a :: t).getD i "") ∘ Nat.succ)
        = (List.range t.length).map (fun i => t.getD i "") :=
      List.map_congr_left (fun i _ => by simp)
    rw [hmap, ih]

lemma placeWord_length (cols : List ℚ) (row : List String) (p : ℚ × String) :
    (placeWord cols row p).length = row.length := by
  rw [placeWord]
  cases assignCol p.1 cols with
  | none => rfl
  | some i => simp

lemma cellTokens_nil (cols : List ℚ) (i : ℕ) : cellTokens cols [] i = [] := rfl

lemma cellTokens_cons (cols : List ℚ) (p : ℚ × String) (t : List (ℚ × String)) (i : ℕ) :
    cellTokens cols (p :: t) i =
      if assignCol p.1 cols = some i then p :: cellTokens cols t i else cellTokens cols t i := by
  rw [cellTokens, List.filter_cons]
  by_cases h : assignCol p.1 cols = some i
  · simp [h, cellTokens]
  · simp [h, cellTokens]

/-- The accumulator-strengthened form of the row-building loop: after
processing `row_words`, cell `i` holds its initial contents followed by
`" " ++ text` for every token of `cellTokens … i`, in input order. -/
lemma buildRow_loop_eq (cols : List ℚ) (row_words : List (ℚ × String)) :
    ∀ acc : List String, acc.length = cols.length →
      row_words.foldl (placeWord cols) acc =
        (List.range cols.length).map
          (fun i => acc.getD i "" ++
            String.join ((cellTokens cols row_words i).map (fun p => " " ++ p.2))) := by
  induction row_words with
  | nil =>
    intro acc hacc
    rw [List.foldl_nil]
    have hcongr : (List.range cols.length).map
        (fun i => acc.getD i "" ++
          String.join ((cellTokens cols ([] : List (ℚ × String)) i).map (fun p => " " ++ p.2)))
        = (List.range cols.length).map (fun i => acc.getD i "") :=
      List.map_congr_left (fun i _ => by rw [cellTokens_nil]; exact String.append_empty _)
    rw [hcongr, ← hacc, map_getD_range]
  | cons p t ih =>
    intro acc hacc
    rw [List.foldl_cons]
    rw [ih (placeWord cols acc p) ((placeWord_length cols acc p).trans hacc)]
    refine List.map_congr_left ?_
    intro i hi
    have hin : i < cols.length := List.mem_range.mp hi
    cases hassign : assignCol p.1 cols with
    | none =>
      simp only [placeWord, hassign]
      rw [cellTokens_cons, if_neg (by simp [hassign])]
    | some j =>
      have hj : j < acc.length := by
        have h2 := firstLE_lt_length (show firstLE p.1 (cols.drop 1) = some j from hassign)
        rw [List.length_drop] at h2
        omega
      simp only [placeWord, hassign]
      by_cases hij : i = j
      · subst hij
        rw [cellTokens_cons, if_pos hassign, List.map_cons, join_cons,
          List.getD_eq_getElem?_getD, List.getElem?_set_self hj, Option.getD_some,
          List.getD_eq_getElem?_getD, String.append_assoc]
      · rw [cellTokens_cons,
          if_neg (by rw [hassign]; exact fun hc => hij (Option.some.inj hc).symm),
          List.getD_eq_getElem?_getD, List.getElem?_set_ne (Ne.symm hij),
          List.getD_eq_getElem?_getD]

/-- Cell `i` of a built row is exactly the concatenation of
`" " ++ text` over the tokens assigned to column `i`, in input order. -/
lemma buildRow_eq_join (cols : List ℚ) (row_words : List (ℚ × String)) :
    buildRow cols row_words =
      (List.range cols.length).map
        (fun i => String.join ((cellTokens cols row_words i).map (fun p => " " ++ p.2))) := by
  rw [buildRow, buildRow_loop_eq cols row_words (List.replicate cols.length "")
    (List.length_replicate _ _)]
  refine List.map_congr_left ?_
  intro i _
  rw [List.getD_eq_getElem?_getD, List.getElem?_replicate]
  by_cases h : i < cols.length
  · rw [if_pos h, Option.getD_some, String.empty_append]
  · rw [if_neg h]
    rfl

lemma allTextPositions_ne_nil {ws : List Word} (hws : ws ≠ []) :
    allTextPositions ws ≠ [] := by
  rcases List.exists_mem_of_ne_nil ws hws with ⟨w, hw⟩
  exact List.ne_nil_of_mem (mem_allTextPositions_of_mem hw)

/-- The last cell never receives a token: assigned indices enumerate
`columns[1:]`, so they are `< len(columns) - 1`. -/
lemma cellTokens_last_nil (cols : List ℚ) (row_words : List (ℚ × String)) :
    cellTokens cols row_words (cols.length - 1) = [] := by
  rw [cellTokens, List.filter_eq_nil_iff]
  intro p _ hc
  have h1 : assignCol p.1 cols = some (cols.length - 1) := of_decide_eq_true hc
  have h2 := firstLE_lt_length (show firstLE p.1 (cols.drop 1) = some _ from h1)
  rw [List.length_drop] at h2
  omega

/-- **C10.** For a non-empty page, every row of the extracted table has
exactly `len(columns)` cells (one more than the number of column bands)
and its last cell is the empty string: the assignment loop only ever
writes the first `len(columns) - 1` cells. -/
theorem row_cells_count_and_trailing_empty (ws : List Word) (g : ℚ) (hws : ws ≠ [])
    (row : List String) (hrow : row ∈ extract_spaced_table ws g) :
    row.length = (detect_column_boundaries (allTextPositions ws) g).length ∧
    row.getLast? = some "" := by
  rw [extract_spaced_table, if_neg (by simpa using hws)] at hrow
  rcases List.mem_map.mp hrow with ⟨k, _, rfl⟩
  set cols := detect_column_boundaries (allTextPositions ws) g with hcols
  have hlen2 : 2 ≤ cols.length := by
    rw [hcols, detect_length (allTextPositions_ne_nil hws) g]
    omega
  have hlenrow : ((buildRow cols (rowWords ws k)).map cleanCell).length = cols.length := by
    rw [List.length_map, buildRow_eq_join, List.length_map, List.length_range]
  refine ⟨hlenrow, ?_⟩
  rw [List.getLast?_eq_getElem?, hlenrow, buildRow_eq_join, List.map_map,
    List.getElem?_map]
  have hrange : (List.range cols.length)[cols.length - 1]? = some (cols.length - 1) :=
    List.getElem?_eq_getElem (by rw [List.length_range]; omega) |>.trans
      (by rw [List.getElem_range])
  rw [hrange, Option.map_some']
  have hnil := cellTokens_last_nil cols (rowWords ws k)
  simp only [Function.comp_apply, hnil, List.map_nil]
  rfl

/-- **C10 witness.** The one-word page `[⟨0, 5, "a"⟩]` extracts to
`[["a", ""]]`; the single row has as many cells as boundaries and ends
with the empty cell. -/
theorem row_cells_count_and_trailing_empty_witness :
    (([(⟨0, 5, "a"⟩ : Word)] : List Word) ≠ [] ∧
      ["a", ""] ∈ extract_spaced_table [(⟨0, 5, "a"⟩ : Word)] 10) ∧
    (["a", ""].length
        = (detect_column_boundaries (allTextPositions [(⟨0, 5, "a"⟩ : Word)]) 10).length ∧
      (["a", ""] : List String).getLast? = some "") := by
  have h1 : ([(⟨0, 5, "a"⟩ : Word)] : List Word) ≠ [] := by simp
  have hev : extract_spaced_table [(⟨0, 5, "a"⟩ : Word)] 10 = [["a", ""]] := by
    norm_num [extract_spaced_table, sortedRowKeys, rowKeyOf, round1, rowWords,
      allTextPositions, detect_column_boundaries, selectedMids, xPositionsOf, sortA, insertA,
      gapsOf, List.filterMap_cons, sortGapsDesc, insertG, gapWidth, midpoint, pyMax,
      List.dedup_cons_of_not_mem, List.dedup_cons_of_mem, buildRow, placeWord, assignCol,
      firstLE, cleanCell, remove_internal_commas, pyStrip, removeCommas]
    decide
  have h2 : ["a", ""] ∈ extract_spaced_table [(⟨0, 5, "a"⟩ : Word)] 10 := by
    rw [hev]
    simp
  exact ⟨⟨h1, h2⟩, row_cells_count_and_trailing_empty _ 10 h1 _ h2⟩

/-! ## Reading a row back in cell order -/

lemma flatMap_congr {α β : Type} {l : List α} {f h : α → List β}
    (hfg : ∀ i ∈ l, f i = h i) : l.flatMap f = l.flatMap h := by
  induction l with
  | nil => rfl
  | cons a t ih =>
    rw [List.flatMap_cons, List.flatMap_cons, hfg a (List.mem_cons_self a t),
      ih (fun i hi => hfg i (List.mem_cons_of_mem a hi))]

/-- Inserting one element into the group indexed by its key: if all
groups before `k` are empty, the element surfaces at the front. -/
lemma flatMap_if_cons {α : Type} (idxs : List ℕ) (k : ℕ) (a : α) (h : ℕ → List α)
    (hk : k ∈ idxs) (hsorted : idxs.Pairwise (· < ·))
    (hempty : ∀ i ∈ idxs, i < k → h i = []) :
    idxs.flatMap (fun i => if k = i then a :: h i else h i) = a :: idxs.flatMap h := by
  induction idxs with
  | nil => cases hk
  | cons i₀ rest ih =>
    rcases List.pairwise_cons.mp hsorted with ⟨hi₀, hrest⟩
    rw [List.flatMap_cons, List.flatMap_cons]
    by_cases hki : k = i₀
    · subst hki
      rw [if_pos rfl]
      have : rest.flatMap (fun i => if k = i then a :: h i else h i) = rest.flatMap h :=
        flatMap_congr (fun i hi => if_neg (Nat.ne_of_lt (hi₀ i hi)))
      rw [this]
      rfl
    · have hkrest : k ∈ rest := by
        rcases List.mem_cons.mp hk with hc | hc
        · exact absurd hc hki
        · exact hc
      have hi₀k : i₀ < k := hi₀ k hkrest
      have hi₀nil : h i₀ = [] := hempty i₀ (List.mem_cons_self _ _) hi₀k
      rw [if_neg hki, hi₀nil,
        ih hkrest hrest (fun i hi hik => hempty i (List.mem_cons_of_mem i₀ hi) hik)]
      rw [List.nil_append]
      rfl

/-- Concatenating the groups of a bucket partition in index order
returns the original list, provided the key is monotone along the list
and every key is in range: the partition is stable. -/
lemma grouped_flatMap_eq_self {α : Type} (f : α → ℕ) (n : ℕ) (l : List α)
    (hlt : ∀ a ∈ l, f a < n) (hmono : l.Pairwise (fun a b => f a ≤ f b)) :
    (List.range n).flatMap (fun i => l.filter (fun a => decide (f a = i))) = l := by
  induction l with
  | nil =>
    have : ∀ i ∈ List.range n, ([] : List α).filter (fun a => decide (f a = i)) = [] :=
      fun i _ => rfl
    rw [flatMap_congr this]
    simp
  | cons a t ih =>
    rcases List.pairwise_cons.mp hmono with ⟨ha, ht⟩
    have hstep : ∀ i ∈ List.range n,
        (a :: t).filter (fun x => decide (f x = i)) =
          (if f a = i then a :: t.filter (fun x => decide (f x = i))
            else t.filter (fun x => decide (f x = i))) := by
      intro i _
      rw [List.filter_cons]
      by_cases hfa : f a = i
      · rw [if_pos (by simpa using hfa), if_pos hfa]
      · rw [if_neg (by simpa using hfa), if_neg hfa]
    rw [flatMap_congr hstep,
      flatMap_if_cons (List.range n) (f a) a _
        (List.mem_range.mpr (hlt a (List.mem_cons_self a t)))
        (List.pairwise_lt_range n)
        (fun i _ hik => List.filter_eq_nil_iff.mpr
          (fun b hb hc => absurd (of_decide_eq_true hc)
            (Nat.ne_of_gt (lt_of_lt_of_le hik (ha b hb))))),
      ih (fun b hb => hlt b (List.mem_cons_of_mem a hb)) ht]

/-- Under a non-decreasing threshold, the chosen column index is
non-decreasing. -/
lemma assignCol_mono {x y : ℚ} (hxy : x ≤ y) {cols : List ℚ} {i j : ℕ}
    (hx : assignCol x cols = some i) (hy : assignCol y cols = some j) : i ≤ j := by
  rcases firstLE_mono hxy hy with ⟨i', hi', hij⟩
  rw [assignCol] at hx
  rw [hx] at hi'
  exact (Option.some.inj hi') ▸ hij

/-- Reading the cells of a row in column order reproduces the row's
tokens in their input order, provided every token is assigned some cell
and the tokens arrive sorted by x-position. -/
lemma readOff_eq_self {cols : List ℚ} {row_words : List (ℚ × String)}
    (htotal : ∀ p ∈ row_words, ∃ i, assignCol p.1 cols = some i)
    (hsorted : row_words.Pairwise (fun p q => p.1 ≤ q.1)) :
    readOff cols row_words = row_words := by
  rw [readOff]
  have hstep : ∀ i ∈ List.range cols.length,
      cellTokens cols row_words i =
        row_words.filter
          (fun p => decide ((assignCol p.1 cols).getD 0 = i)) := by
    intro i _
    rw [cellTokens]
    refine List.filter_congr ?_
    intro p hp
    rcases htotal p hp with ⟨j, hj⟩
    rw [hj]
    simp
  rw [flatMap_congr hstep]
  refine grouped_flatMap_eq_self _ cols.length row_words ?_ ?_
  · intro p hp
    rcases htotal p hp with ⟨j, hj⟩
    rw [hj]
    have h2 := firstLE_lt_length (show firstLE p.1 (cols.drop 1) = some j from hj)
    rw [List.length_drop] at h2
    simpa using by omega
  · refine hsorted.imp_of_mem ?_
    intro p q hp hq hpq
    rcases htotal p hp with ⟨i, hi⟩
    rcases htotal q hq with ⟨j, hj⟩
    rw [hi, hj]
    simpa using assignCol_mono hpq hi hj

/-- A pairwise relation on the page's `(x1, text)` pairs restricts to
every row (rows are filtered sublists). -/
lemma rowWords_pairwise {ws : List Word} {R : ℚ × String → ℚ × String → Prop}
    (h : (ws.map (fun w => (w.x1, w.text))).Pairwise R) (k : ℚ) :
    (rowWords ws k).Pairwise R := by
  rw [rowWords]
  exact List.Pairwise.sublist (List.Sublist.map _ (List.filter_sublist ws)) h

/-- **C1 counterexample.**  The page whose words arrive in the order
`B (x=12), A (x=10), C (x=100)` on one line: the extracted row is
`["B A", "C", ""]`, and the tokens read off cell by cell are
`[(12,B), (10,A), (100,C)]` — not in ascending x-order, because the code
never sorts a row's tokens by x-position (it keeps the extraction
order).  So concatenating the cells does not, in general, list the
row's tokens left-to-right. -/
theorem spaced_table_token_order_counterexample :
    extract_spaced_table [⟨0, 12, "B"⟩, ⟨0, 10, "A"⟩, ⟨0, 100, "C"⟩] 10
      = [["B A", "C", ""]] ∧
    readOff
        (detect_column_boundaries
          (allTextPositions [⟨0, 12, "B"⟩, ⟨0, 10, "A"⟩, ⟨0, 100, "C"⟩]) 10)
        (rowWords [⟨0, 12, "B"⟩, ⟨0, 10, "A"⟩, ⟨0, 100, "C"⟩] (rowKeyOf ⟨0, 12, "B"⟩))
      = [(12, "B"), (10, "A"), (100, "C")] ∧
    ¬ (readOff
        (detect_column_boundaries
          (allTextPositions [⟨0, 12, "B"⟩, ⟨0, 10, "A"⟩, ⟨0, 100, "C"⟩]) 10)
        (rowWords [⟨0, 12, "B"⟩, ⟨0, 10, "A"⟩, ⟨0, 100, "C"⟩]
          (rowKeyOf ⟨0, 12, "B"⟩))).Pairwise (fun p q => p.1 ≤ q.1) := by
  have hread : readOff
      (detect_column_boundaries
        (allTextPositions [⟨0, 12, "B"⟩, ⟨0, 10, "A"⟩, ⟨0, 100, "C"⟩]) 10)
      (rowWords [⟨0, 12, "B"⟩, ⟨0, 10, "A"⟩, ⟨0, 100, "C"⟩] (rowKeyOf ⟨0, 12, "B"⟩))
      = [(12, "B"), (10, "A"), (100, "C")] := by
    norm_num [readOff, cellTokens, rowKeyOf, round1, rowWords, allTextPositions,
      sortedRowKeys, detect_column_boundaries, selectedMids, xPositionsOf, sortA, insertA,
      gapsOf, List.filterMap_cons, sortGapsDesc, insertG, gapWidth, midpoint, pyMax,
      List.dedup_cons_of_not_mem, List.dedup_cons_of_mem, assignCol, firstLE,
      List.range_succ]
  refine ⟨?_, hread, ?_⟩
  · norm_num [extract_spaced_table, sortedRowKeys, rowKeyOf, round1, rowWords,
      allTextPositions, detect_column_boundaries, selectedMids, xPositionsOf, sortA, insertA,
      gapsOf, List.filterMap_cons, sortGapsDesc, insertG, gapWidth, midpoint, pyMax,
      List.dedup_cons_of_not_mem, List.dedup_cons_of_mem, buildRow, placeWord, assignCol,
      firstLE, cleanCell, remove_internal_commas, pyStrip, removeCommas]
    decide
  · rw [hread]
    intro hc
    rcases List.pairwise_cons.mp hc with ⟨h1, _⟩
    have := h1 (10, "A") (List.mem_cons_self _ _)
    norm_num at this

/-- **C1 (amended).**  The extracted rows are ordered top-to-bottom by
strictly ascending rounded vertical position.  Within a row, cell `i` of
the built row is exactly the concatenation of `" " ++ text` over the
tokens assigned to band `i` in input order, and — provided the row's
tokens arrive in ascending x-order — reading the cells in column order
reproduces the row's tokens exactly in that left-to-right order (no
token is reordered across or within cell boundaries).  Without that
proviso the code preserves extraction order inside each cell, not
x-order. -/
theorem spaced_table_row_and_cell_order (ws : List Word) (g : ℚ)
    (hsorted : ∀ k, (rowWords ws k).Pairwise (fun p q => p.1 ≤ q.1)) :
    (sortedRowKeys ws).Chain' (· < ·) ∧
    (∀ k, buildRow (detect_column_boundaries (allTextPositions ws) g) (rowWords ws k)
      = (List.range (detect_column_boundaries (allTextPositions ws) g).length).map
          (fun i => String.join
            ((cellTokens (detect_column_boundaries (allTextPositions ws) g)
              (rowWords ws k) i).map (fun p => " " ++ p.2)))) ∧
    (∀ k ∈ sortedRowKeys ws,
      readOff (detect_column_boundaries (allTextPositions ws) g) (rowWords ws k)
        = rowWords ws k) := by
  refine ⟨?_, fun k => buildRow_eq_join _ _, ?_⟩
  · have h1 : (sortedRowKeys ws).Pairwise (· ≤ ·) := sortA_sorted _
    have h2 : (sortedRowKeys ws).Nodup := (sortA_perm _).symm.nodup (List.nodup_dedup _)
    exact List.Pairwise.chain' ((h1.and h2).imp (fun h => lt_of_le_of_ne h.1 h.2))
  · intro k hk
    refine readOff_eq_self ?_ (hsorted k)
    intro p hp
    have hmem : p ∈ allTextPositions ws := by
      rw [allTextPositions]
      exact List.mem_flatMap.mpr ⟨k, hk, hp⟩
    exact assignCol_isSome_of_mem_page g (List.mem_map.mpr ⟨p, hmem, rfl⟩)

/-- **C1 witness.** The same one-line page with its words already in
ascending x-order: the read-off order equals the input order. -/
theorem spaced_table_row_and_cell_order_witness :
    (∀ k, (rowWords [⟨0, 10, "A"⟩, ⟨0, 12, "B"⟩, ⟨0, 100, "C"⟩] k).Pairwise
      (fun p q => p.1 ≤ q.1)) ∧
    ((sortedRowKeys [⟨0, 10, "A"⟩, ⟨0, 12, "B"⟩, ⟨0, 100, "C"⟩]).Chain' (· < ·) ∧
    (∀ k, buildRow
        (detect_column_boundaries
          (allTextPositions [⟨0, 10, "A"⟩, ⟨0, 12, "B"⟩, ⟨0, 100, "C"⟩]) 10)
        (rowWords [⟨0, 10, "A"⟩, ⟨0, 12, "B"⟩, ⟨0, 100, "C"⟩] k)
      = (List.range (detect_column_boundaries
          (allTextPositions [⟨0, 10, "A"⟩, ⟨0, 12, "B"⟩, ⟨0, 100, "C"⟩]) 10).length).map
          (fun i => String.join
            ((cellTokens (detect_column_boundaries
                (allTextPositions [⟨0, 10, "A"⟩, ⟨0, 12, "B"⟩, ⟨0, 100, "C"⟩]) 10)
              (rowWords [⟨0, 10, "A"⟩, ⟨0, 12, "B"⟩, ⟨0, 100, "C"⟩] k) i).map
                (fun p => " " ++ p.2)))) ∧
    (∀ k ∈ sortedRowKeys [⟨0, 10, "A"⟩, ⟨0, 12, "B"⟩, ⟨0, 100, "C"⟩],
      readOff (detect_column_boundaries
          (allTextPositions [⟨0, 10, "A"⟩, ⟨0, 12, "B"⟩, ⟨0, 100, "C"⟩]) 10)
        (rowWords [⟨0, 10, "A"⟩, ⟨0, 12, "B"⟩, ⟨0, 100, "C"⟩] k)
        = rowWords [⟨0, 10, "A"⟩, ⟨0, 12, "B"⟩, ⟨0, 100, "C"⟩] k)) := by
  have hs : ∀ k, (rowWords [⟨0, 10, "A"⟩, ⟨0, 12, "B"⟩, ⟨0, 100, "C"⟩] k).Pairwise
      (fun p q => p.1 ≤ q.1) := by
    intro k
    refine rowWords_pairwise ?_ k
    refine List.pairwise_cons.mpr ⟨?_, List.pairwise_cons.mpr ⟨?_, List.pairwise_singleton _ _⟩⟩
    · intro q hq
      rcases List.mem_cons.mp hq with rfl | hq
      · norm_num
      · rcases List.mem_singleton.mp hq with rfl
        norm_num
    · intro q hq
      rcases List.mem_singleton.mp hq with rfl
      norm_num
  exact ⟨hs, spaced_table_row_and_cell_order _ 10 hs⟩

/-! ## The materializer (spaced branch of `extract_tables_from_pdf`) -/

/-- **C7 counterexample.**  A grid with header `["h", ""]`, an entirely
empty second row and an entirely empty second column.  The saved table
keeps both: `dropna(how="all")` removes only rows whose cells are all
missing, and the grid's cells are strings (an empty string is not NA in
pandas), and no column trimming exists in the code at all. -/
theorem materializer_counterexample :
    materialize_spaced [["h", ""], ["", ""], ["a", ""]]
      = some (["h", ""], [["", ""], ["a", ""]]) ∧
    ¬ (∀ r ∈ [["", ""], ["a", ""]], ∃ c ∈ r, c ≠ "") ∧
    (∀ r ∈ [["", ""], ["a", ""]], r.getD 1 "x" = "") ∧
    (["h", ""].getD 1 "x" = "") := by
  refine ⟨by decide, ?_, by decide, by decide⟩
  intro hc
  rcases hc ["", ""] (List.mem_cons_self _ _) with ⟨c, hc1, hc2⟩
  rcases List.mem_cons.mp hc1 with rfl | hc1
  · exact hc2 rfl
  · rcases List.mem_singleton.mp hc1 with rfl
    exact hc2 rfl

lemma all_isNA_false {r : List String} (hr : r ≠ []) : r.all isNA = false := by
  cases r with
  | nil => exact absurd rfl hr
  | cons c t => simp [isNA]

/-- **C7 (amended).**  The saved spaced table is the grid unchanged:
the header is the first row when it has a non-empty cell (else
synthesized labels), and the data rows are exactly `spaced_table[1:]` —
`dropna(how="all")` drops nothing because string cells are never
missing, and fully empty columns are not trimmed. -/
theorem materializer_drops_nothing (t : List (List String))
    (h1 : t ≠ []) (h2 : 1 < t.length)
    (h3 : t.any (fun row => row.any (fun cell => 0 < cell.length)) = true)
    (h4 : ∀ r ∈ t.drop 1, r ≠ []) :
    materialize_spaced t = some (spacedHeaders t, t.drop 1) := by
  rw [materialize_spaced, if_pos ⟨h1, h2, h3⟩]
  have : dropna_all (t.drop 1) = t.drop 1 := by
    rw [dropna_all]
    refine List.filter_eq_self.mpr ?_
    intro r hr
    rw [all_isNA_false (h4 r hr)]
    rfl
  rw [this]

/-- **C7 witness.**  The grid `[["h"], ["", "x"]]` materializes to header
`["h"]` and data rows `[["", "x"]]` — nothing dropped. -/
theorem materializer_drops_nothing_witness :
    (([["h"], ["", "x"]] : List (List String)) ≠ [] ∧
      1 < ([["h"], ["", "x"]] : List (List String)).length ∧
      ([["h"], ["", "x"]] : List (List String)).any
        (fun row => row.any (fun cell => 0 < cell.length)) = true ∧
      ∀ r ∈ ([["h"], ["", "x"]] : List (List String)).drop 1, r ≠ []) ∧
    materialize_spaced [["h"], ["", "x"]]
      = some (spacedHeaders [["h"], ["", "x"]], ([["h"], ["", "x"]] : List (List String)).drop 1) := by
  have h1 : ([["h"], ["", "x"]] : List (List String)) ≠ [] := by simp
  have h2 : 1 < ([["h"], ["", "x"]] : List (List String)).length := by simp
  have h3 : ([["h"], ["", "x"]] : List (List String)).any
      (fun row => row.any (fun cell => 0 < cell.length)) = true := by decide
  have h4 : ∀ r ∈ ([["h"], ["", "x"]] : List (List String)).drop 1, r ≠ [] := by decide
  exact ⟨⟨h1, h2, h3, h4⟩, materializer_drops_nothing _ h1 h2 h3 h4⟩

/-! ## The page loop and the external verdict -/

/-- **C8.**  For a page that passes Stage 1 (enough text and a passing
pre-filter verdict): the page is accepted iff the external interaction
succeeded with verdict `true` and confidence strictly above 0.7; any
raised failure (transport or parse) yields the fail-closed verdict
`(False, 0.0, "API error: …")`; and the loop always continues with the
remaining pages, whatever this page's outcome. -/
theorem classifier_acceptance_and_fail_closed (p : Page)
    (hlen : ¬ p.strippedLen < 100) (hpre : p.prefilterPass = true) :
    ((∃ conf r, p.outcome = .ok true conf r ∧ (7 / 10 : ℚ) < conf) ↔
      processPage p = some p.num) ∧
    (∀ m, check_financial (.err m) = (false, 0, "API error: " ++ m)) ∧
    (∀ rest, process_pdf_with_prefilter (p :: rest)
      = (processPage p).toList ++ process_pdf_with_prefilter rest) := by
  refine ⟨?_, fun m => rfl, ?_⟩
  · rw [processPage, if_neg hlen, if_neg (by simp [hpre])]
    constructor
    · rintro ⟨conf, r, hout, hconf⟩
      rw [hout]
      show (if true = true ∧ (7 / 10 : ℚ) < conf then some p.num else none) = some p.num
      exact if_pos ⟨rfl, hconf⟩
    · intro hsome
      cases hout : p.outcome with
      | ok c conf r =>
        rw [hout] at hsome
        have hsome' : (if c = true ∧ (7 / 10 : ℚ) < conf then some p.num else none)
            = some p.num := hsome
        by_cases hcond : c = true ∧ (7 / 10 : ℚ) < conf
        · refine ⟨conf, r, ?_, hcond.2⟩
          rw [hcond.1]
        · rw [if_neg hcond] at hsome'
          cases hsome'
      | err m =>
        rw [hout] at hsome
        have hsome' : (if false = true ∧ (7 / 10 : ℚ) < 0 then some p.num else none)
            = some p.num := hsome
        rw [if_neg (by simp)] at hsome'
        cases hsome' 
  · intro rest
    rw [process_pdf_with_prefilter, process_pdf_with_prefilter, List.filterMap_cons]
    cases processPage p with
    | none => rfl
    | some v => rfl

/-- **C8 witness.**  A page with 200 characters, a passing pre-filter and
a successful `(true, 0.9)` verdict. -/
theorem classifier_acceptance_and_fail_closed_witness :
    (¬ (Page.mk 1 200 true (.ok true (9 / 10) "tables")).strippedLen < 100 ∧
      (Page.mk 1 200 true (.ok true (9 / 10) "tables")).prefilterPass = true) ∧
    (((∃ conf r, (Page.mk 1 200 true (.ok true (9 / 10) "tables")).outcome
        = .ok true conf r ∧ (7 / 10 : ℚ) < conf) ↔
      processPage (Page.mk 1 200 true (.ok true (9 / 10) "tables"))
        = some (Page.mk 1 200 true (.ok true (9 / 10) "tables")).num) ∧
    (∀ m, check_financial (.err m) = (false, 0, "API error: " ++ m)) ∧
    (∀ rest, process_pdf_with_prefilter (Page.mk 1 200 true (.ok true (9 / 10) "tables") :: rest)
      = (processPage (Page.mk 1 200 true (.ok true (9 / 10) "tables"))).toList
          ++ process_pdf_with_prefilter rest)) := by
  have h1 : ¬ (Page.mk 1 200 true (.ok true (9 / 10) "tables")).strippedLen < 100 := by
    decide
  have h2 : (Page.mk 1 200 true (.ok true (9 / 10) "tables")).prefilterPass = true := rfl
  exact ⟨⟨h1, h2⟩, classifier_acceptance_and_fail_closed _ h1 h2⟩

/-! ## Monotonicity of the Stage-1 score -/

lemma keywordScore_mono {k k' : ℕ} (h : k ≤ k') : keywordScore k ≤ keywordScore k' := by
  rw [keywordScore, keywordScore]
  by_cases h0 : 0 < k
  · rw [if_pos h0, if_pos (lt_of_lt_of_le h0 h)]
    refine min_le_min (le_refl 1) ?_
    have : (k : ℚ) ≤ (k' : ℚ) := Nat.cast_le.mpr h
    nlinarith
  · rw [if_neg h0]
    by_cases h0' : 0 < k'
    · rw [if_pos h0']
      refine le_min (by norm_num) ?_
      positivity
    · rw [if_neg h0']

lemma symbolScore_mono {s s' : ℕ} (h : s ≤ s') : symbolScore s ≤ symbolScore s' := by
  rw [symbolScore, symbolScore]
  by_cases h0 : 0 < s
  · rw [if_pos h0, if_pos (lt_of_lt_of_le h0 h)]
    refine min_le_min (le_refl _) ?_
    have : (s : ℚ) ≤ (s' : ℚ) := Nat.cast_le.mpr h
    nlinarith
  · rw [if_neg h0]
    by_cases h0' : 0 < s'
    · rw [if_pos h0']
      refine le_min (by norm_num) ?_
      positivity
    · rw [if_neg h0']

lemma patternScore_mono {p p' : ℕ} (h : p ≤ p') : patternScore p ≤ patternScore p' := by
  rw [patternScore, patternScore]
  by_cases h0 : 0 < p
  · rw [if_pos h0, if_pos (lt_of_lt_of_le h0 h)]
    refine min_le_min (le_refl _) ?_
    have : (p : ℚ) ≤ (p' : ℚ) := Nat.cast_le.mpr h
    nlinarith
  · rw [if_neg h0]
    by_cases h0' : 0 < p'
    · rw [if_pos h0']
      refine le_min (by norm_num) ?_
      positivity
    · rw [if_neg h0']

lemma structureScore_mono {t t' : ℕ} (h : t ≤ t') : structureScore t ≤ structureScore t' := by
  rw [structureScore, structureScore]
  by_cases h3 : 3 ≤ t
  · rw [if_pos h3, if_pos (le_trans h3 h)]
    refine min_le_min (le_refl _) ?_
    have : (t : ℚ) ≤ (t' : ℚ) := Nat.cast_le.mpr h
    nlinarith
  · rw [if_neg h3]
    by_cases h3' : 3 ≤ t'
    · rw [if_pos h3']
      refine le_min (by norm_num) ?_
      positivity
    · rw [if_neg h3']

/-- **C9.**  The Stage-1 score is monotonically non-decreasing in each of
the four match counts it aggregates, and consequently raising any count
never turns a passing page into a failing one. -/
theorem prefilter_score_monotone (k k' s s' p p' t t' : ℕ)
    (hk : k ≤ k') (hs : s ≤ s') (hp : p ≤ p') (ht : t ≤ t') :
    prefilterScore k s p t ≤ prefilterScore k' s' p' t' ∧
    (passesPrefilter k s p t = true → passesPrefilter k' s' p' t' = true) := by
  have hscore : prefilterScore k s p t ≤ prefilterScore k' s' p' t' := by
    rw [prefilterScore, prefilterScore]
    have h1 := keywordScore_mono hk
    have h2 := symbolScore_mono hs
    have h3 := patternScore_mono hp
    have h4 := structureScore_mono ht
    linarith
  refine ⟨hscore, ?_⟩
  intro hpass
  have h1 : (4 / 10 : ℚ) ≤ prefilterScore k s p t := of_decide_eq_true hpass
  exact decide_eq_true_eq.mpr (le_trans h1 hscore)

/-- **C9 witness.**  Raising the counts `(1, 1, 1, 3)` to `(2, 2, 6, 4)`
does not lower the score nor flip a pass into a fail. -/
theorem prefilter_score_monotone_witness :
    ((1 : ℕ) ≤ 2 ∧ (1 : ℕ) ≤ 2 ∧ (1 : ℕ) ≤ 6 ∧ (3 : ℕ) ≤ 4) ∧
    (prefilterScore 1 1 1 3 ≤ prefilterScore 2 2 6 4 ∧
      (passesPrefilter 1 1 1 3 = true → passesPrefilter 2 2 6 4 = true)) := by
  exact ⟨⟨by norm_num, by norm_num, by norm_num, by norm_num⟩,
    prefilter_score_monotone 1 2 1 2 1 6 3 4 (by norm_num) (by norm_num) (by norm_num)
      (by norm_num)⟩

end FinancialReportETL
